import Mathlib

/-! SafeMap, withRetry and NewServer.

A shallow embedding of three fragments of the repository:

* `07_maps/advanced_maps.go`: the type `SafeMap` (a `sync.RWMutex` embedded next
  to a `map[string]int`), its constructor `NewSafeMap` and its methods `Set` and
  `Get`;
* `08_functions/advanced_functions.go`: the decorator `withRetry`;
* `08_functions/advanced_functions.go`: the struct `Server`, the options
  `WithPort`, `WithTimeout` and `WithMaxConn`, and the constructor `NewServer`.

Conventions of the embedding.

* A Go `int` value is an `Int`. `Set` and `Get` only store and return values and
  never compute with them, so no wrap-around can occur.
* A Go `map[string]int` is either `nil` or a finite map from strings to
  integers; it is an `Option (Finmap _)`, `none` being the nil map.
* A method call on `*SafeMap` takes the store and yields an `Exec`: how the call
  ended (`Status`), the store it left behind and the trace of the lock and map
  operations it performed, each recorded with the lock state it ran in.
* `sync.RWMutex` is a writer flag and a reader count: the holders of the lock.
  Goroutines waiting for the lock are not part of the state. An acquire that
  would have to wait yields no next state: the call is `blocked`.
-/

namespace GoLang

/-! ## sync.RWMutex -/

/-- The state of a `sync.RWMutex`: whether a writer holds it, and how many
readers hold it. The Go zero value is the unlocked mutex. -/
structure RWMutex where
  writer : Bool := false
  readers : Nat := 0
  deriving DecidableEq, Repr

namespace RWMutex

/-- The zero value of `sync.RWMutex`: unlocked. -/
def unlocked : RWMutex := { writer := false, readers := 0 }

/-- `rw.Lock()`: takes the lock for writing. It proceeds only when nobody holds
the lock; otherwise the caller waits (`none`). -/
def Lock (rw : RWMutex) : Option RWMutex :=
  if rw.writer = false ∧ rw.readers = 0 then some { rw with writer := true } else none

/-- `rw.Unlock()`: releases the write lock. Unlocking a mutex that is not locked
for writing is a fatal runtime error (`none`). -/
def Unlock (rw : RWMutex) : Option RWMutex :=
  if rw.writer = true then some { rw with writer := false } else none

/-- `rw.RLock()`: takes the lock for reading. It proceeds only when no writer
holds the lock; otherwise the caller waits (`none`). The state records who holds
the lock, not who waits for it: a writer queued in `Lock`, behind which the real
`RLock` waits as well, has no place in it. On a free lock nobody can be queued,
and there this rule is the whole of `RLock`. -/
def RLock (rw : RWMutex) : Option RWMutex :=
  if rw.writer = false then some { rw with readers := rw.readers + 1 } else none

/-- `rw.RUnlock()`: releases one read lock. Doing so when no reader holds the
lock is a fatal runtime error (`none`). -/
def RUnlock (rw : RWMutex) : Option RWMutex :=
  if 0 < rw.readers then some { rw with readers := rw.readers - 1 } else none

end RWMutex

/-! ## map[string]int -/

/-- A Go `map[string]int`: `none` is the nil map, `some m` an allocated map. -/
abbrev GoMap := Option (Finmap (fun _ : String => Int))

namespace GoMap

/-- `make(map[string]int)`: a fresh, empty, non-nil map. -/
def make : GoMap := some ∅

/-- `val, ok := m[key]`: the comma-ok lookup. A missing key, and any key of the
nil map, gives the zero value and `false`. -/
def access2 (m : GoMap) (key : String) : Int × Bool :=
  match m with
  | none => (0, false)
  | some f =>
    match f.lookup key with
    | some v => (v, true)
    | none => (0, false)

/-- `m[key] = value`: inserts or overwrites the entry. On the nil map the
assignment panics (`none`). -/
def assign (m : GoMap) (key : String) (value : Int) : Option GoMap :=
  match m with
  | none => none
  | some f => some (some (f.insert key value))

end GoMap

/-! ## SafeMap -/

/-- The struct `SafeMap`: an embedded `sync.RWMutex` and the field `data`. -/
structure SafeMap extends RWMutex where
  data : GoMap

/-- The operations a method performs on the lock and on the map. -/
inductive Event where
  | lock
  | unlock
  | rlock
  | runlock
  | assign (key : String) (value : Int)
  | access (key : String)
  deriving DecidableEq, Repr

/-- One entry of a trace: an operation and the lock state it ran in. -/
structure Step where
  event : Event
  mu : RWMutex
  deriving DecidableEq, Repr

/-- How a call ended. -/
inductive Status (α : Type) where
  | returned (r : α)
  | panicked (msg : String)
  | blocked
  | fatal (msg : String)
  deriving DecidableEq, Repr

/-- The outcome of a method call: its status, the store afterwards and the
operations it performed, in order. -/
structure Exec (α : Type) where
  status : Status α
  store : SafeMap
  trace : List Step

/-- The zero value `SafeMap{}`: an unlocked mutex and a nil map. -/
def SafeMap.zero : SafeMap := { toRWMutex := RWMutex.unlocked, data := none }

/-- `NewSafeMap()`: an unlocked mutex and `data: make(map[string]int)`. -/
def NewSafeMap : SafeMap := { toRWMutex := RWMutex.unlocked, data := GoMap.make }

/-- The method `Set`:
`sm.Lock(); defer sm.Unlock(); sm.data[key] = value`.
The deferred `Unlock` runs when the function returns and also when the
assignment panics. -/
def SafeMap.Set (sm : SafeMap) (key : String) (value : Int) : Exec Unit :=
  match sm.toRWMutex.Lock with
  | none => { status := .blocked, store := sm, trace := [] }
  | some mu1 =>
    let t1 : List Step := [⟨.lock, sm.toRWMutex⟩, ⟨.assign key value, mu1⟩]
    match sm.data.assign key value with
    | some d =>
      match mu1.Unlock with
      | some mu2 =>
        { status := .returned (), store := { toRWMutex := mu2, data := d },
          trace := t1 ++ [⟨.unlock, mu1⟩] }
      | none =>
        { status := .fatal "sync: Unlock of unlocked RWMutex",
          store := { toRWMutex := mu1, data := d }, trace := t1 ++ [⟨.unlock, mu1⟩] }
    | none =>
      match mu1.Unlock with
      | some mu2 =>
        { status := .panicked "assignment to entry in nil map",
          store := { toRWMutex := mu2, data := sm.data }, trace := t1 ++ [⟨.unlock, mu1⟩] }
      | none =>
        { status := .fatal "sync: Unlock of unlocked RWMutex",
          store := { toRWMutex := mu1, data := sm.data }, trace := t1 ++ [⟨.unlock, mu1⟩] }

/-- The method `Get`:
`sm.RLock(); defer sm.RUnlock(); val, ok := sm.data[key]; return val, ok`. -/
def SafeMap.Get (sm : SafeMap) (key : String) : Exec (Int × Bool) :=
  match sm.toRWMutex.RLock with
  | none => { status := .blocked, store := sm, trace := [] }
  | some mu1 =>
    let t1 : List Step := [⟨.rlock, sm.toRWMutex⟩, ⟨.access key, mu1⟩]
    let r := sm.data.access2 key
    match mu1.RUnlock with
    | some mu2 =>
      { status := .returned r, store := { toRWMutex := mu2, data := sm.data },
        trace := t1 ++ [⟨.runlock, mu1⟩] }
    | none =>
      { status := .fatal "sync: RUnlock of unlocked RWMutex",
        store := { toRWMutex := mu1, data := sm.data }, trace := t1 ++ [⟨.runlock, mu1⟩] }

/-! ## Sequences of calls -/

/-- A call of one of the two methods of a store. -/
inductive Call where
  | set (key : String) (value : Int)
  | get (key : String)
  deriving DecidableEq, Repr

/-- Performs the calls one after the other, each on the store the previous one
left; `none` as soon as a call does not return. -/
def runCalls : List Call → SafeMap → Option SafeMap
  | [], sm => some sm
  | .set key value :: cs, sm =>
    match (sm.Set key value).status with
    | .returned _ => runCalls cs (sm.Set key value).store
    | _ => none
  | .get key :: cs, sm =>
    match (sm.Get key).status with
    | .returned _ => runCalls cs (sm.Get key).store
    | _ => none

/-- The calls `Set(k, v)` for the pairs of a list, in order. -/
def setCalls (kvs : List (String × Int)) : List Call :=
  kvs.map fun p => Call.set p.1 p.2

/-- A store is reachable when some sequence of completed `Set` and `Get` calls
leads to it from the store `NewSafeMap()` returns. -/
def Reachable (sm : SafeMap) : Prop :=
  ∃ cs : List Call, runCalls cs NewSafeMap = some sm

/-- A store between two calls: its map is allocated and nobody holds its lock. -/
def Ready (sm : SafeMap) : Prop :=
  sm.data ≠ none ∧ sm.writer = false ∧ sm.readers = 0

/-! ## Goroutines calling `Set` concurrently

`main` launches goroutines that each call `safeMap.Set(key, n)` on one shared
store and waits for all of them (`wg.Wait()`). A goroutine inside `Set` moves
through the three operations of the method, one at a time; between two of its
operations any other goroutine may move. -/

/-- Where a goroutine stands in its call of `Set`. -/
inductive PC where
  /-- About to call `sm.Lock()`. -/
  | start
  /-- Holds the lock, about to run `sm.data[key] = value`. -/
  | locked
  /-- Past the assignment, about to run the deferred `sm.Unlock()`. -/
  | assigned
  /-- `Set` has returned (and the goroutine has called `wg.Done()`). -/
  | done
  /-- The assignment panicked, about to run the deferred `sm.Unlock()`. -/
  | panicking
  /-- The panic has left `Set`. -/
  | crashed
  /-- The deferred `Unlock` found the mutex unlocked: fatal runtime error. -/
  | fatal
  deriving DecidableEq, Repr

/-- One operation of a goroutine running `sm.Set(key, value)`, from where it
stands; `none` when it cannot move: it waits for the lock, or it is finished. -/
def stepSet (key : String) (value : Int) (sm : SafeMap) : PC → Option (SafeMap × PC)
  | .start =>
    match sm.toRWMutex.Lock with
    | some mu => some ({ sm with toRWMutex := mu }, .locked)
    | none => none
  | .locked =>
    match sm.data.assign key value with
    | some d => some ({ sm with data := d }, .assigned)
    | none => some (sm, .panicking)
  | .assigned =>
    match sm.toRWMutex.Unlock with
    | some mu => some ({ sm with toRWMutex := mu }, .done)
    | none => some (sm, .fatal)
  | .panicking =>
    match sm.toRWMutex.Unlock with
    | some mu => some ({ sm with toRWMutex := mu }, .crashed)
    | none => some (sm, .fatal)
  | .done => none
  | .crashed => none
  | .fatal => none

/-- The shared store and the position of every goroutine. -/
structure Config where
  store : SafeMap
  pc : Nat → PC

/-- The state right after `n` goroutines have been launched on `sm`. -/
def launch (sm : SafeMap) : Config := { store := sm, pc := fun _ => .start }

/-- Goroutine `i` of `n`, which runs `Set(keys i, i)`, performs its next
operation; `none` when it cannot move. -/
def Config.step (keys : Nat → String) (n : Nat) (c : Config) (i : Nat) : Option Config :=
  if i < n then
    match stepSet (keys i) (i : Int) c.store (c.pc i) with
    | some (sm, pc) => some { store := sm, pc := Function.update c.pc i pc }
    | none => none
  else none

/-- Runs a schedule: the goroutines named in the list move in that order;
`none` when the schedule names a goroutine that cannot move. -/
def runSchedule (keys : Nat → String) (n : Nat) : List Nat → Config → Option Config
  | [], c => some c
  | i :: sched, c =>
    match c.step keys n i with
    | some c2 => runSchedule keys n sched c2
    | none => none

/-- Every goroutine has returned from `Set`: `wg.Wait()` returns. -/
def Config.joined (n : Nat) (c : Config) : Prop := ∀ i, i < n → c.pc i = .done

/-- The goroutine holds the write lock: it is between `Lock` and `Unlock`. -/
def PC.inCritical : PC → Bool
  | .locked => true
  | .assigned => true
  | .panicking => true
  | _ => false

/-- The number of operations a goroutine still has to perform. -/
def PC.remaining : PC → Nat
  | .start => 3
  | .locked => 2
  | .assigned => 1
  | .panicking => 1
  | _ => 0

/-- The keys `key0`, `key1`, ... that `main` uses: `fmt.Sprintf("key%d", n)`. -/
def mainKey (n : Nat) : String := "key" ++ toString n

/-- The number of operations the `n` goroutines still have to perform. -/
def Config.remaining (n : Nat) (c : Config) : Nat :=
  ∑ i ∈ Finset.range n, (c.pc i).remaining

/-- What holds of every state the `n` concurrent writers can reach from a ready
store `sm0`: the map is allocated, no reader is around, no goroutine has failed,
the write lock is held exactly while one goroutine is between `Lock` and
`Unlock`, no two goroutines are there together, every goroutine past its
assignment finds its own value under its own key, and a key that belongs to no
goroutine has the entry it had in `sm0`. -/
structure Inv (keys : Nat → String) (n : Nat) (sm0 : SafeMap) (c : Config) : Prop where
  alloc : c.store.data ≠ none
  noReaders : c.store.readers = 0
  sane : ∀ i, i < n →
    c.pc i = .start ∨ c.pc i = .locked ∨ c.pc i = .assigned ∨ c.pc i = .done
  held : ∀ i, i < n → (c.pc i).inCritical = true → c.store.writer = true
  holder : c.store.writer = true → ∃ i, i < n ∧ (c.pc i).inCritical = true
  excl : ∀ i j, i < n → j < n →
    (c.pc i).inCritical = true → (c.pc j).inCritical = true → i = j
  written : ∀ i, i < n → (c.pc i = .assigned ∨ c.pc i = .done) →
    c.store.data.access2 (keys i) = ((i : Int), true)
  kept : ∀ k, (∀ i, i < n → keys i ≠ k) → c.store.data.access2 k = sm0.data.access2 k

/-! ## withRetry -/

/-- A Go `error` value: `none` is `nil`, `some msg` is an error whose `Error()`
is `msg`. -/
abbrev GoError := Option String

/-- How `%v` prints an error value. -/
def GoError.format : GoError → String
  | none => "<nil>"
  | some msg => msg

/-- The type `HttpHandler`, `func(string) (string, error)`. A handler need not be
pure (`handleRequest` reads the clock, `withLogging` writes the log): a call
takes the state `σ` of the rest of the program and gives the next one. -/
abbrev HttpHandler (σ : Type) := String → σ → (String × GoError) × σ

/-- What a call of the function `withRetry` builds leaves behind: the two
returned values, the program state, and what the call itself did: how many times
it invoked the handler, the lines it wrote with `log.Printf`, and the
milliseconds it spent in `time.Sleep`. -/
structure Reply (σ : Type) where
  result : String
  err : GoError
  world : σ
  calls : Nat
  log : List String
  slept : Nat

/-- The loop `for i := 0; i < attempts; i++` of `withRetry`, entered with the
current `i` and `lastErr`. One unit of fuel is spent per evaluation of the loop
condition; `none` when the fuel runs out. -/
def retryLoop {σ : Type} (attempts : Int) (handler : HttpHandler σ) (req : String) :
    Nat → Int → GoError → σ → Nat → List String → Nat → Option (Reply σ)
  | 0, _, _, _, _, _, _ => none
  | fuel + 1, i, lastErr, w, calls, log, slept =>
    if i < attempts then
      match handler req w with
      | ((result, none), w2) =>
        some { result := result, err := none, world := w2, calls := calls + 1,
               log := log, slept := slept }
      | ((_, some e), w2) =>
        retryLoop attempts handler req fuel (i + 1) (some e) w2 (calls + 1)
          (log ++ ["Attempt " ++ toString (i + 1) ++ " failed: " ++ e]) (slept + 100)
    else
      some { result := "",
             err := some ("all " ++ toString attempts ++ " attempts failed. Last error: "
               ++ lastErr.format),
             world := w, calls := calls, log := log, slept := slept }

/-- The decorator `withRetry(attempts, handler)`, applied to a request. The loop
condition is evaluated at most once more than `attempts` times, which is the fuel
given to the loop. -/
def withRetry {σ : Type} (attempts : Int) (handler : HttpHandler σ) (req : String) (w : σ) :
    Option (Reply σ) :=
  retryLoop attempts handler req (attempts.toNat + 1) 0 none w 0 [] 0

/-- The program state before the `j`-th consecutive invocation `handler(req)`,
counted from 0. -/
def worldBefore {σ : Type} (handler : HttpHandler σ) (req : String) (w : σ) : Nat → σ
  | 0 => w
  | j + 1 => (handler req (worldBefore handler req w j)).2

/-- What the `j`-th consecutive invocation `handler(req)` returns. -/
def invocation {σ : Type} (handler : HttpHandler σ) (req : String) (w : σ) (j : Nat) :
    String × GoError :=
  (handler req (worldBefore handler req w j)).1

/-- The error `withRetry` reports when the loop ends without a success: `nil` if
the handler was never invoked, else the error of the last invocation. -/
def lastError {σ : Type} (handler : HttpHandler σ) (req : String) (w : σ) : Nat → GoError
  | 0 => none
  | j + 1 => (invocation handler req w j).2

/-- A handler that fails until it has been invoked `k` times and then succeeds;
its state is the number of invocations so far. -/
def flaky (k : Nat) : HttpHandler Nat := fun req w =>
  if w < k then (("", some "random error"), w + 1) else (("processed: " ++ req, none), w + 1)

/-! ## NewServer and its functional options -/

/-- The constant `time.Second`: a `time.Duration` counts nanoseconds. -/
def time.Second : Int := 1000000000

/-- The constant `time.Minute`. -/
def time.Minute : Int := 60 * time.Second

/-- The struct `Server`. The field `timeout` is a `time.Duration`, a number of
nanoseconds. -/
structure Server where
  host : String
  port : Int
  timeout : Int
  maxConn : Int
  deriving DecidableEq, Repr

/-- The type `ServerOption`, `func(*Server)`: a function that updates the server
it is handed. -/
abbrev ServerOption := Server → Server

/-- `WithPort(port)`: the option that sets `s.port = port`. -/
def WithPort (port : Int) : ServerOption := fun s => { s with port := port }

/-- `WithTimeout(timeout)`: the option that sets `s.timeout = timeout`. -/
def WithTimeout (timeout : Int) : ServerOption := fun s => { s with timeout := timeout }

/-- `WithMaxConn(maxConn)`: the option that sets `s.maxConn = maxConn`. -/
def WithMaxConn (maxConn : Int) : ServerOption := fun s => { s with maxConn := maxConn }

/-- `NewServer(host, options...)`: builds the server with the given host and the
defaults, then applies the options to it, first to last. -/
def NewServer (host : String) (options : List ServerOption) : Server :=
  options.foldl (fun server option => option server)
    { host := host, port := 8080, timeout := 30 * time.Second, maxConn := 100 }

/-- A call of one of the three option constructors. -/
inductive OptionCall where
  | withPort (port : Int)
  | withTimeout (timeout : Int)
  | withMaxConn (maxConn : Int)
  deriving DecidableEq, Repr

/-- The option a constructor call returns. -/
def OptionCall.build : OptionCall → ServerOption
  | .withPort port => WithPort port
  | .withTimeout timeout => WithTimeout timeout
  | .withMaxConn maxConn => WithMaxConn maxConn

/-- The argument of a call that targets `port`. -/
def OptionCall.portArg : OptionCall → Option Int
  | .withPort port => some port
  | _ => none

/-- The argument of a call that targets `timeout`. -/
def OptionCall.timeoutArg : OptionCall → Option Int
  | .withTimeout timeout => some timeout
  | _ => none

/-- The argument of a call that targets `maxConn`. -/
def OptionCall.maxConnArg : OptionCall → Option Int
  | .withMaxConn maxConn => some maxConn
  | _ => none

/-- The argument of the last call in the list that targets the field `arg`
selects; `none` when no call targets it. -/
def lastArg (arg : OptionCall → Option Int) (calls : List OptionCall) : Option Int :=
  (calls.filterMap arg).getLast?

/-! ## Basic facts about `Set` and `Get` -/

theorem set_of_ready (sm : SafeMap) (f : Finmap (fun _ : String => Int)) (key : String)
    (value : Int) (hd : sm.data = some f) (hw : sm.writer = false) (hr : sm.readers = 0) :
    sm.Set key value =
      { status := .returned ()
        store := { toRWMutex := sm.toRWMutex, data := some (f.insert key value) }
        trace := [⟨.lock, sm.toRWMutex⟩, ⟨.assign key value, { writer := true, readers := 0 }⟩,
          ⟨.unlock, { writer := true, readers := 0 }⟩] } := by
  rcases sm with ⟨⟨w, r⟩, d⟩
  simp only at hd hw hr
  subst hd hw hr
  simp [SafeMap.Set, RWMutex.Lock, RWMutex.Unlock, GoMap.assign]

theorem set_of_nil (sm : SafeMap) (key : String) (value : Int)
    (hd : sm.data = none) (hw : sm.writer = false) (hr : sm.readers = 0) :
    sm.Set key value =
      { status := .panicked "assignment to entry in nil map"
        store := sm
        trace := [⟨.lock, sm.toRWMutex⟩, ⟨.assign key value, { writer := true, readers := 0 }⟩,
          ⟨.unlock, { writer := true, readers := 0 }⟩] } := by
  rcases sm with ⟨⟨w, r⟩, d⟩
  simp only at hd hw hr
  subst hd hw hr
  simp [SafeMap.Set, RWMutex.Lock, RWMutex.Unlock, GoMap.assign]

theorem set_of_held (sm : SafeMap) (key : String) (value : Int)
    (h : ¬ (sm.writer = false ∧ sm.readers = 0)) :
    sm.Set key value = { status := .blocked, store := sm, trace := [] } := by
  rcases sm with ⟨⟨w, r⟩, d⟩
  simp only at h
  simp [SafeMap.Set, RWMutex.Lock, h]

theorem get_of_no_writer (sm : SafeMap) (key : String) (hw : sm.writer = false) :
    sm.Get key =
      { status := .returned (sm.data.access2 key)
        store := sm
        trace := [⟨.rlock, sm.toRWMutex⟩,
          ⟨.access key, { writer := false, readers := sm.readers + 1 }⟩,
          ⟨.runlock, { writer := false, readers := sm.readers + 1 }⟩] } := by
  rcases sm with ⟨⟨w, r⟩, d⟩
  simp only at hw
  subst hw
  simp [SafeMap.Get, RWMutex.RLock, RWMutex.RUnlock]

theorem get_of_writer (sm : SafeMap) (key : String) (hw : sm.writer = true) :
    sm.Get key = { status := .blocked, store := sm, trace := [] } := by
  rcases sm with ⟨⟨w, r⟩, d⟩
  simp only at hw
  subst hw
  simp [SafeMap.Get, RWMutex.RLock]

theorem get_store (sm : SafeMap) (key : String) : (sm.Get key).store = sm := by
  cases hw : sm.writer
  · rw [get_of_no_writer sm key hw]
  · rw [get_of_writer sm key hw]

theorem ready_new : Ready NewSafeMap := by
  simp [Ready, NewSafeMap, GoMap.make, RWMutex.unlocked]

theorem ready_set_store (sm : SafeMap) (key : String) (value : Int) (h : Ready sm) :
    Ready (sm.Set key value).store := by
  obtain ⟨hd, hw, hr⟩ := h
  obtain ⟨f, hf⟩ := Option.ne_none_iff_exists'.mp hd
  rw [set_of_ready sm f key value hf hw hr]
  exact ⟨by simp, hw, hr⟩

theorem ready_of_runCalls (cs : List Call) :
    ∀ sm sm2 : SafeMap, Ready sm → runCalls cs sm = some sm2 → Ready sm2 := by
  induction cs with
  | nil =>
    intro sm sm2 h hrun
    simp only [runCalls, Option.some.injEq] at hrun
    exact hrun ▸ h
  | cons c cs ih =>
    intro sm sm2 h hrun
    cases c with
    | set key value =>
      simp only [runCalls] at hrun
      split at hrun
      · exact ih _ _ (ready_set_store sm key value h) hrun
      · exact absurd hrun (by simp)
    | get key =>
      simp only [runCalls] at hrun
      split at hrun
      · rw [get_store] at hrun
        exact ih _ _ h hrun
      · exact absurd hrun (by simp)

theorem ready_of_reachable (sm : SafeMap) (h : Reachable sm) : Ready sm := by
  obtain ⟨cs, hcs⟩ := h
  exact ready_of_runCalls cs NewSafeMap sm ready_new hcs

theorem reachable_new : Reachable NewSafeMap := ⟨[], rfl⟩

theorem access2_insert_self (f : Finmap (fun _ : String => Int)) (key : String) (value : Int) :
    GoMap.access2 (some (f.insert key value)) key = (value, true) := by
  simp [GoMap.access2, Finmap.lookup_insert]

theorem access2_insert_of_ne (f : Finmap (fun _ : String => Int)) (key key2 : String)
    (value : Int) (h : key2 ≠ key) :
    GoMap.access2 (some (f.insert key value)) key2 = GoMap.access2 (some f) key2 := by
  simp [GoMap.access2, Finmap.lookup_insert_of_ne f h]

/-- On a ready store `Set` returns, leaves the store ready and stores the pair. -/
theorem set_ready_spec (sm : SafeMap) (key : String) (value : Int) (h : Ready sm) :
    (sm.Set key value).status = .returned () ∧ Ready (sm.Set key value).store ∧
      (sm.Set key value).store.data.access2 key = (value, true) ∧
      ∀ key2, key2 ≠ key →
        (sm.Set key value).store.data.access2 key2 = sm.data.access2 key2 := by
  have hready := ready_set_store sm key value h
  obtain ⟨hd, hw, hr⟩ := h
  obtain ⟨f, hf⟩ := Option.ne_none_iff_exists'.mp hd
  rw [set_of_ready sm f key value hf hw hr] at hready ⊢
  refine ⟨rfl, hready, access2_insert_self f key value, ?_⟩
  intro key2 hne
  rw [hf]
  exact access2_insert_of_ne f key key2 value hne

/-- On a ready store `Get` returns the comma-ok lookup of its map. -/
theorem get_ready_status (sm : SafeMap) (key : String) (h : Ready sm) :
    (sm.Get key).status = .returned (sm.data.access2 key) := by
  rw [get_of_no_writer sm key h.2.1]

/-- `Set` returns only on a store whose map is allocated and whose lock is
free. -/
theorem ready_of_set_returned (sm : SafeMap) (key : String) (value : Int)
    (h : (sm.Set key value).status = .returned ()) : Ready sm := by
  by_cases hfree : sm.writer = false ∧ sm.readers = 0
  · cases hd : sm.data with
    | none =>
      rw [set_of_nil sm key value hd hfree.1 hfree.2] at h
      exact absurd h (by simp)
    | some f => exact ⟨by rw [hd]; simp, hfree.1, hfree.2⟩
  · rw [set_of_held sm key value hfree] at h
    exact absurd h (by simp)

theorem runCalls_append (cs cs2 : List Call) :
    ∀ sm sm2 : SafeMap, runCalls cs sm = some sm2 →
      runCalls (cs ++ cs2) sm = runCalls cs2 sm2 := by
  induction cs with
  | nil =>
    intro sm sm2 h
    simp only [runCalls, Option.some.injEq] at h
    rw [List.nil_append, h]
  | cons c cs ih =>
    intro sm sm2 h
    cases c with
    | set key value =>
      simp only [runCalls, List.cons_append] at h ⊢
      split at h
      · exact ih _ _ h
      · exact absurd h (by simp)
    | get key =>
      simp only [runCalls, List.cons_append] at h ⊢
      split at h
      · exact ih _ _ h
      · exact absurd h (by simp)

/-- Every store with an allocated map and a free lock is built from the store
`NewSafeMap()` returns by a sequence of `Set` calls. -/
theorem reachable_of_ready (sm : SafeMap) (h : Ready sm) : Reachable sm := by
  have build : ∀ f : Finmap (fun _ : String => Int),
      Reachable { toRWMutex := RWMutex.unlocked, data := some f } := by
    intro f
    induction f using Finmap.induction_on with
    | H l =>
      induction l using AList.insertRec with
      | H0 => exact ⟨[], rfl⟩
      | IH key value l _ ih =>
        obtain ⟨cs, hcs⟩ := ih
        refine ⟨cs ++ [Call.set key value], ?_⟩
        rw [runCalls_append cs _ NewSafeMap _ hcs]
        have hset := set_of_ready { toRWMutex := RWMutex.unlocked, data := some l.toFinmap }
          l.toFinmap key value rfl rfl rfl
        simp only [runCalls, hset, Finmap.insert_toFinmap]
  obtain ⟨hd, hw, hr⟩ := h
  obtain ⟨f, hf⟩ := Option.ne_none_iff_exists'.mp hd
  have hsm : sm = { toRWMutex := RWMutex.unlocked, data := some f } := by
    rcases sm with ⟨⟨w, r⟩, d⟩
    simp only at hf hw hr
    subst hf hw hr
    rfl
  rw [hsm]
  exact build f

/-- A goroutine that runs alone performs `Set` in three operations: the store
it leaves is the store `Set` leaves, and it ends in `done` when `Set` returns
and in `crashed` when `Set` panics. -/
theorem stepSet_solo (sm : SafeMap) (key : String) (value : Int)
    (hw : sm.writer = false) (hr : sm.readers = 0) :
    ∃ s1 s2 p2 p3, stepSet key value sm .start = some (s1, .locked) ∧
      stepSet key value s1 .locked = some (s2, p2) ∧
      stepSet key value s2 p2 = some ((sm.Set key value).store, p3) ∧
      (p3 = .done ↔ (sm.Set key value).status = .returned ()) ∧
      (p3 = .crashed ↔
        (sm.Set key value).status = .panicked "assignment to entry in nil map") := by
  rcases sm with ⟨⟨w, r⟩, d⟩
  simp only at hw hr
  subst hw hr
  cases d with
  | none =>
    refine ⟨⟨⟨true, 0⟩, none⟩, ⟨⟨true, 0⟩, none⟩, .panicking, .crashed, ?_⟩
    exact ⟨by simp [stepSet, RWMutex.Lock], by simp [stepSet, GoMap.assign],
      by simp [stepSet, RWMutex.Unlock, SafeMap.Set, RWMutex.Lock, GoMap.assign],
      by simp [SafeMap.Set, RWMutex.Lock, RWMutex.Unlock, GoMap.assign],
      by simp [SafeMap.Set, RWMutex.Lock, RWMutex.Unlock, GoMap.assign]⟩
  | some f =>
    refine ⟨⟨⟨true, 0⟩, some f⟩, ⟨⟨true, 0⟩, some (f.insert key value)⟩, .assigned, .done, ?_⟩
    exact ⟨by simp [stepSet, RWMutex.Lock], by simp [stepSet, GoMap.assign],
      by simp [stepSet, RWMutex.Unlock, SafeMap.Set, RWMutex.Lock, GoMap.assign],
      by simp [SafeMap.Set, RWMutex.Lock, RWMutex.Unlock, GoMap.assign],
      by simp [SafeMap.Set, RWMutex.Lock, RWMutex.Unlock, GoMap.assign]⟩

/-! ## The claims about SafeMap -/

/-- C1: for every store reachable from `NewSafeMap()`, every key `k` and every
integer `v`, `Set(k, v)` returns, and `Get(k)` called on the store right after it
returns `(v, true)`. -/
theorem C1_get_after_set (sm : SafeMap) (k : String) (v : Int) (h : Reachable sm) :
    (sm.Set k v).status = .returned () ∧
      ((sm.Set k v).store.Get k).status = .returned (v, true) := by
  obtain ⟨hret, hready, hself, -⟩ := set_ready_spec sm k v (ready_of_reachable sm h)
  exact ⟨hret, by rw [get_ready_status _ k hready, hself]⟩

theorem C1_get_after_set_witness :
    Reachable NewSafeMap ∧ (NewSafeMap.Set "a" 1).status = .returned () ∧
      ((NewSafeMap.Set "a" 1).store.Get "a").status = .returned (1, true) :=
  ⟨reachable_new, C1_get_after_set NewSafeMap "a" 1 reachable_new⟩

/-- C2: for every key `k` and every sequence of `Set` calls on the store
`NewSafeMap()` returns in which `k` is never the key (the empty sequence
included), all the calls return and `Get(k)` on the resulting store returns
`(0, false)`. -/
theorem C2_get_absent (k : String) (kvs : List (String × Int))
    (h : ∀ p ∈ kvs, p.1 ≠ k) :
    ∃ sm, runCalls (setCalls kvs) NewSafeMap = some sm ∧
      (sm.Get k).status = .returned (0, false) := by
  have key : ∀ (kvs : List (String × Int)) (sm0 : SafeMap), (∀ p ∈ kvs, p.1 ≠ k) →
      Ready sm0 → sm0.data.access2 k = (0, false) →
      ∃ sm, runCalls (setCalls kvs) sm0 = some sm ∧
        (sm.Get k).status = .returned (0, false) := by
    intro kvs
    induction kvs with
    | nil =>
      intro sm0 _ hready habs
      exact ⟨sm0, rfl, by rw [get_ready_status sm0 k hready, habs]⟩
    | cons p kvs ih =>
      intro sm0 hk hready habs
      obtain ⟨hret, hready2, -, hframe⟩ := set_ready_spec sm0 p.1 p.2 hready
      have hne : k ≠ p.1 := fun e => hk p (List.mem_cons_self _ _) e.symm
      obtain ⟨sm, hrun, hget⟩ := ih (sm0.Set p.1 p.2).store
        (fun q hq => hk q (List.mem_cons_of_mem _ hq)) hready2
        (by rw [hframe k hne, habs])
      refine ⟨sm, ?_, hget⟩
      simp only [setCalls, List.map_cons, runCalls, hret]
      exact hrun
  exact key kvs NewSafeMap h ready_new (by simp [NewSafeMap, GoMap.make, GoMap.access2])

theorem C2_get_absent_witness :
    (∀ p ∈ [("a", (1 : Int)), ("b", 2)], p.1 ≠ "c") ∧
      ∃ sm, runCalls (setCalls [("a", 1), ("b", 2)]) NewSafeMap = some sm ∧
        (sm.Get "c").status = .returned (0, false) :=
  ⟨by decide, C2_get_absent "c" [("a", 1), ("b", 2)] (by decide)⟩

/-- C3: last write wins. For every store, key `k` and values `v1`, `v2`: once
`Set(k, v1)` has returned, `Set(k, v2)` on the store it left returns too, and
`Get(k)` on the resulting store returns `(v2, true)`, whatever `v1` was. On every
store reachable from `NewSafeMap()` the first `Set` does return. -/
theorem C3_last_write_wins (sm : SafeMap) (k : String) (v1 v2 : Int) :
    ((sm.Set k v1).status = .returned () →
      ((sm.Set k v1).store.Set k v2).status = .returned () ∧
      (((sm.Set k v1).store.Set k v2).store.Get k).status = .returned (v2, true)) ∧
    (Reachable sm → (sm.Set k v1).status = .returned ()) := by
  constructor
  · intro h1
    obtain ⟨-, hready1, -, -⟩ := set_ready_spec sm k v1 (ready_of_set_returned sm k v1 h1)
    obtain ⟨hret2, hready2, hself, -⟩ := set_ready_spec (sm.Set k v1).store k v2 hready1
    exact ⟨hret2, by rw [get_ready_status _ k hready2, hself]⟩
  · intro h
    exact (set_ready_spec sm k v1 (ready_of_reachable sm h)).1

theorem C3_last_write_wins_witness :
    Reachable NewSafeMap ∧ (NewSafeMap.Set "a" 1).status = .returned () ∧
      ((NewSafeMap.Set "a" 1).store.Set "a" 2).status = .returned () ∧
      (((NewSafeMap.Set "a" 1).store.Set "a" 2).store.Get "a").status = .returned (2, true) :=
  ⟨reachable_new, (C3_last_write_wins NewSafeMap "a" 1 2).2 reachable_new,
    (C3_last_write_wins NewSafeMap "a" 1 2).1
      ((C3_last_write_wins NewSafeMap "a" 1 2).2 reachable_new)⟩

/-- C4: `Set` is idempotent. For every store, key `k` and value `v`, the store
after `Set(k, v); Set(k, v)` has the same map as the store after one
`Set(k, v)`; once the first `Set(k, v)` has returned, the second returns too and
`Get(k)` returns `(v, true)` after one call and after two. On every store
reachable from `NewSafeMap()` the first `Set` does return. -/
theorem C4_set_idempotent (sm : SafeMap) (k : String) (v : Int) :
    ((sm.Set k v).store.Set k v).store.data = (sm.Set k v).store.data ∧
    ((sm.Set k v).status = .returned () →
      ((sm.Set k v).store.Set k v).status = .returned () ∧
      ((sm.Set k v).store.Get k).status = .returned (v, true) ∧
      (((sm.Set k v).store.Set k v).store.Get k).status = .returned (v, true)) ∧
    (Reachable sm → (sm.Set k v).status = .returned ()) := by
  refine ⟨?_, ?_, ?_⟩
  · by_cases hfree : sm.writer = false ∧ sm.readers = 0
    · obtain ⟨hw, hr⟩ := hfree
      cases hd : sm.data with
      | none =>
        rw [set_of_nil sm k v hd hw hr]
        simp only
        rw [set_of_nil sm k v hd hw hr]
      | some f =>
        rw [set_of_ready sm f k v hd hw hr]
        simp only
        rw [set_of_ready ⟨sm.toRWMutex, some (f.insert k v)⟩ (f.insert k v) k v rfl hw hr]
        simp only [Finmap.insert_insert]
    · rw [set_of_held sm k v hfree]
      simp only
      rw [set_of_held sm k v hfree]
  · intro h1
    obtain ⟨-, hready1, hself1, -⟩ := set_ready_spec sm k v (ready_of_set_returned sm k v h1)
    obtain ⟨hret2, hready2, hself2, -⟩ := set_ready_spec (sm.Set k v).store k v hready1
    exact ⟨hret2, by rw [get_ready_status _ k hready1, hself1],
      by rw [get_ready_status _ k hready2, hself2]⟩
  · intro h
    exact (set_ready_spec sm k v (ready_of_reachable sm h)).1

theorem C4_set_idempotent_witness :
    Reachable NewSafeMap ∧
      ((NewSafeMap.Set "a" 1).store.Set "a" 1).store.data = (NewSafeMap.Set "a" 1).store.data ∧
      (NewSafeMap.Set "a" 1).status = .returned () ∧
      ((NewSafeMap.Set "a" 1).store.Set "a" 1).status = .returned () ∧
      ((NewSafeMap.Set "a" 1).store.Get "a").status = .returned (1, true) ∧
      (((NewSafeMap.Set "a" 1).store.Set "a" 1).store.Get "a").status = .returned (1, true) :=
  ⟨reachable_new, (C4_set_idempotent NewSafeMap "a" 1).1,
    (C4_set_idempotent NewSafeMap "a" 1).2.2 reachable_new,
    (C4_set_idempotent NewSafeMap "a" 1).2.1
      ((C4_set_idempotent NewSafeMap "a" 1).2.2 reachable_new)⟩

/-- C5: `Set` changes only the entry of its own key. For every store, distinct
keys `k` and `k2` and value `v`, `Get(k2)` ends the same way, with the same
`(value, found)` pair, on the store after `Set(k, v)` as on the store before it;
on a store reachable from `NewSafeMap()` both calls return. On the fresh store,
after `Set("a", 1); Set("b", 2)`, `Get("a")` is `(1, true)` and `Get("c")` is
`(0, false)`. -/
theorem C5_set_frame (sm : SafeMap) (k k2 : String) (v : Int) (hne : k ≠ k2) :
    ((sm.Set k v).store.Get k2).status = (sm.Get k2).status ∧
      (Reachable sm → (sm.Set k v).status = .returned () ∧
        ∃ r, (sm.Get k2).status = .returned r ∧
          ((sm.Set k v).store.Get k2).status = .returned r) ∧
      (((NewSafeMap.Set "a" 1).store.Set "b" 2).store.Get "a").status = .returned (1, true) ∧
      (((NewSafeMap.Set "a" 1).store.Set "b" 2).store.Get "c").status
        = .returned (0, false) := by
  have hframe : ((sm.Set k v).store.Get k2).status = (sm.Get k2).status := by
    by_cases hfree : sm.writer = false ∧ sm.readers = 0
    · obtain ⟨hw, hr⟩ := hfree
      cases hd : sm.data with
      | none => rw [set_of_nil sm k v hd hw hr]
      | some f =>
        rw [set_of_ready sm f k v hd hw hr, get_of_no_writer sm k2 hw,
          get_of_no_writer ⟨sm.toRWMutex, some (f.insert k v)⟩ k2 hw]
        simp only [hd]
        rw [access2_insert_of_ne f k k2 v (Ne.symm hne)]
    · rw [set_of_held sm k v hfree]
  refine ⟨hframe, ?_, by decide, by decide⟩
  intro h
  have hready := ready_of_reachable sm h
  refine ⟨(set_ready_spec sm k v hready).1, sm.data.access2 k2, get_ready_status sm k2 hready, ?_⟩
  rw [hframe, get_ready_status sm k2 hready]

theorem C5_set_frame_witness :
    "a" ≠ "b" ∧ Reachable NewSafeMap ∧
      ((NewSafeMap.Set "a" 1).store.Get "b").status = (NewSafeMap.Get "b").status ∧
      (NewSafeMap.Set "a" 1).status = .returned () :=
  ⟨by decide, reachable_new, (C5_set_frame NewSafeMap "a" "b" 1 (by decide)).1,
    ((C5_set_frame NewSafeMap "a" "b" 1 (by decide)).2.1 reachable_new).1⟩

/-- C7, as stated, fails: on the zero value `SafeMap{}`, whose map is nil, `Set`
panics with "assignment to entry in nil map". -/
theorem C7_set_panics_on_nil_map :
    (SafeMap.zero.Set "a" 1).status = .panicked "assignment to entry in nil map" := by
  decide

/-- C7, amended: `Set` and `Get` are total and never fail on the stores the
constructor builds. For every store reachable from `NewSafeMap()`, every key and
every value, `Set(key, value)` returns and `Get(key)` returns, a missing key
being reported only through the boolean result: the flag is `true` exactly when
the key is in the map, and the value is `0` when it is not. On the zero value
`SafeMap{}`, whose map is nil, `Get(key)` returns too, with `(0, false)`; only
`Set` panics there. -/
theorem C7_total_on_reachable (sm : SafeMap) (k : String) (v : Int) :
    (Reachable sm →
      (sm.Set k v).status = .returned () ∧
      ∃ val ok, (sm.Get k).status = .returned (val, ok) ∧
        (ok = true ↔ ∃ f, sm.data = some f ∧ k ∈ f) ∧ (ok = false → val = 0)) ∧
    (SafeMap.zero.Get k).status = .returned (0, false) := by
  refine ⟨?_, ?_⟩
  · intro h
    have hready := ready_of_reachable sm h
    refine ⟨(set_ready_spec sm k v hready).1, ?_⟩
    rw [get_ready_status sm k hready]
    obtain ⟨f, hf⟩ := Option.ne_none_iff_exists'.mp hready.1
    rw [hf]
    cases hl : f.lookup k with
    | none =>
      refine ⟨0, false, by simp [GoMap.access2, hl], ?_, fun _ => rfl⟩
      have : k ∉ f := Finmap.lookup_eq_none.mp hl
      simp [this]
    | some x =>
      refine ⟨x, true, by simp [GoMap.access2, hl], ?_, by simp⟩
      have : k ∈ f := Finmap.mem_of_lookup_eq_some hl
      simp [this]
  · rw [get_of_no_writer SafeMap.zero k rfl]
    rfl

theorem C7_total_on_reachable_witness :
    Reachable (NewSafeMap.Set "a" 1).store ∧
      ((NewSafeMap.Set "a" 1).store.Set "a" 2).status = .returned () ∧
      ∃ val ok, ((NewSafeMap.Set "a" 1).store.Get "a").status = .returned (val, ok) ∧
        (ok = true ↔ ∃ f, (NewSafeMap.Set "a" 1).store.data = some f ∧ "a" ∈ f) ∧
        (ok = false → val = 0) :=
  ⟨⟨[Call.set "a" 1], rfl⟩,
    (C7_total_on_reachable (NewSafeMap.Set "a" 1).store "a" 2).1 ⟨[Call.set "a" 1], rfl⟩⟩

/-- C8: lock discipline. On a store whose lock is free, `Set` performs exactly
three operations: it takes the exclusive lock on the free mutex, assigns the map
entry while the mutex is held by one writer and no reader, and releases the
exclusive lock; `Get` takes the shared lock on the free mutex, looks the key up
while the mutex is held by one reader and no writer, and releases the shared
lock. Neither is blocked nor hits a fatal lock error, and the lock state after
either call equals the lock state before it: free. -/
theorem C8_lock_discipline (sm : SafeMap) (k : String) (v : Int)
    (hfree : sm.toRWMutex = RWMutex.unlocked) :
    (sm.Set k v).trace =
        [⟨.lock, RWMutex.unlocked⟩, ⟨.assign k v, { writer := true, readers := 0 }⟩,
          ⟨.unlock, { writer := true, readers := 0 }⟩] ∧
      (sm.Set k v).store.toRWMutex = RWMutex.unlocked ∧
      ((sm.Set k v).status = .returned () ∨
        (sm.Set k v).status = .panicked "assignment to entry in nil map") ∧
      (sm.Get k).trace =
        [⟨.rlock, RWMutex.unlocked⟩, ⟨.access k, { writer := false, readers := 1 }⟩,
          ⟨.runlock, { writer := false, readers := 1 }⟩] ∧
      (sm.Get k).store.toRWMutex = RWMutex.unlocked ∧
      ∃ r, (sm.Get k).status = .returned r := by
  have hw : sm.writer = false := by
    have := congrArg RWMutex.writer hfree
    simpa [RWMutex.unlocked] using this
  have hr : sm.readers = 0 := by
    have := congrArg RWMutex.readers hfree
    simpa [RWMutex.unlocked] using this
  refine ⟨?_, ?_, ?_, ?_, ?_, ?_⟩
  · cases hd : sm.data with
    | none => rw [set_of_nil sm k v hd hw hr, hfree]
    | some f => rw [set_of_ready sm f k v hd hw hr, hfree]
  · cases hd : sm.data with
    | none => rw [set_of_nil sm k v hd hw hr, hfree]
    | some f => rw [set_of_ready sm f k v hd hw hr, hfree]
  · cases hd : sm.data with
    | none => exact Or.inr (by rw [set_of_nil sm k v hd hw hr])
    | some f => exact Or.inl (by rw [set_of_ready sm f k v hd hw hr])
  · rw [get_of_no_writer sm k hw, hfree]
    rfl
  · rw [get_store, hfree]
  · exact ⟨_, by rw [get_of_no_writer sm k hw]⟩

theorem C8_lock_discipline_witness :
    NewSafeMap.toRWMutex = RWMutex.unlocked ∧
      (NewSafeMap.Set "a" 1).trace =
        [⟨.lock, RWMutex.unlocked⟩, ⟨.assign "a" 1, { writer := true, readers := 0 }⟩,
          ⟨.unlock, { writer := true, readers := 0 }⟩] ∧
      (NewSafeMap.Set "a" 1).store.toRWMutex = RWMutex.unlocked :=
  ⟨rfl, (C8_lock_discipline NewSafeMap "a" 1 rfl).1, (C8_lock_discipline NewSafeMap "a" 1 rfl).2.1⟩

/-- C9: `Get` is read-only. For every store and key `k`, the store after
`Get(k)` is the store before it, map and lock alike; so every `Get`, of the same
or of another key, issued after it ends as it would have without it. -/
theorem C9_get_read_only (sm : SafeMap) (k k2 : String) :
    (sm.Get k).store.data = sm.data ∧ (sm.Get k).store = sm ∧
      ((sm.Get k).store.Get k2).status = (sm.Get k2).status := by
  rw [get_store]
  exact ⟨rfl, rfl, rfl⟩

/-! ## Concurrent writers -/

theorem step_of_start (keys : Nat → String) (n : Nat) (c : Config) (i : Nat) (hi : i < n)
    (hpc : c.pc i = .start) (hw : c.store.writer = false) (hr : c.store.readers = 0) :
    c.step keys n i = some
      { store := { toRWMutex := { writer := true, readers := 0 }, data := c.store.data }
        pc := Function.update c.pc i .locked } := by
  rcases c with ⟨⟨⟨w, r⟩, d⟩, pc⟩
  simp only at hpc hw hr
  subst hw hr
  simp [Config.step, hi, hpc, stepSet, RWMutex.Lock]

theorem step_of_locked (keys : Nat → String) (n : Nat) (c : Config) (i : Nat) (hi : i < n)
    (hpc : c.pc i = .locked) (f : Finmap (fun _ : String => Int))
    (hd : c.store.data = some f) :
    c.step keys n i = some
      { store := { toRWMutex := c.store.toRWMutex, data := some (f.insert (keys i) (i : Int)) }
        pc := Function.update c.pc i .assigned } := by
  rcases c with ⟨⟨⟨w, r⟩, d⟩, pc⟩
  simp only at hpc hd
  subst hd
  simp [Config.step, hi, hpc, stepSet, GoMap.assign]

theorem step_of_assigned (keys : Nat → String) (n : Nat) (c : Config) (i : Nat) (hi : i < n)
    (hpc : c.pc i = .assigned) (hw : c.store.writer = true) :
    c.step keys n i = some
      { store := { toRWMutex := { writer := false, readers := c.store.readers },
                   data := c.store.data }
        pc := Function.update c.pc i .done } := by
  rcases c with ⟨⟨⟨w, r⟩, d⟩, pc⟩
  simp only at hpc hw
  subst hw
  simp [Config.step, hi, hpc, stepSet, RWMutex.Unlock]

theorem step_none_of_held (keys : Nat → String) (n : Nat) (c : Config) (i : Nat)
    (hpc : c.pc i = .start) (hw : c.store.writer = true) : c.step keys n i = none := by
  rcases c with ⟨⟨⟨w, r⟩, d⟩, pc⟩
  simp only at hpc hw
  subst hw
  simp [Config.step, hpc, stepSet, RWMutex.Lock]

theorem step_none_of_done (keys : Nat → String) (n : Nat) (c : Config) (i : Nat)
    (hpc : c.pc i = .done) : c.step keys n i = none := by
  simp [Config.step, hpc, stepSet]

theorem step_none_of_ge (keys : Nat → String) (n : Nat) (c : Config) (i : Nat)
    (hi : ¬ i < n) : c.step keys n i = none := by
  simp [Config.step, hi]

theorem remaining_update (n : Nat) (pc : Nat → PC) (i : Nat) (hi : i < n) (q : PC) :
    (∑ j ∈ Finset.range n, (Function.update pc i q j).remaining) + (pc i).remaining
      = (∑ j ∈ Finset.range n, (pc j).remaining) + q.remaining := by
  have hmem : i ∈ Finset.range n := Finset.mem_range.mpr hi
  have h1 : q.remaining + ∑ j ∈ (Finset.range n).erase i, (Function.update pc i q j).remaining
      = ∑ j ∈ Finset.range n, (Function.update pc i q j).remaining := by
    have := Finset.add_sum_erase (Finset.range n)
      (fun j => (Function.update pc i q j).remaining) hmem
    simpa only [Function.update_same] using this
  have h2 : (pc i).remaining + ∑ j ∈ (Finset.range n).erase i, (pc j).remaining
      = ∑ j ∈ Finset.range n, (pc j).remaining :=
    Finset.add_sum_erase (Finset.range n) (fun j => (pc j).remaining) hmem
  have h3 : ∑ j ∈ (Finset.range n).erase i, (Function.update pc i q j).remaining
      = ∑ j ∈ (Finset.range n).erase i, (pc j).remaining :=
    Finset.sum_congr rfl fun j hj => by
      rw [Function.update_noteq (Finset.ne_of_mem_erase hj)]
  omega

theorem inv_launch (keys : Nat → String) (n : Nat) (sm : SafeMap) (h : Ready sm) :
    Inv keys n sm (launch sm) where
  alloc := h.1
  noReaders := h.2.2
  sane := fun _ _ => Or.inl rfl
  held := fun _ _ hc => by simp [launch, PC.inCritical] at hc
  holder := fun hw => by
    have := h.2.1
    simp only [launch] at hw
    rw [this] at hw
    exact absurd hw (by decide)
  excl := fun _ _ _ _ hc => by simp [launch, PC.inCritical] at hc
  written := fun _ _ hc => by simp [launch] at hc
  kept := fun _ _ => rfl

theorem remaining_launch (n : Nat) (sm : SafeMap) : (launch sm).remaining n = 3 * n := by
  simp [Config.remaining, launch, PC.remaining, Nat.mul_comm]

theorem inv_step_start (keys : Nat → String) (n : Nat) (sm0 : SafeMap) (c : Config) (i : Nat)
    (hi : i < n)
    (hinv : Inv keys n sm0 c) (hpc : c.pc i = .start) (hw : c.store.writer = false) :
    Inv keys n sm0
      { store := { toRWMutex := { writer := true, readers := 0 }, data := c.store.data }
        pc := Function.update c.pc i .locked } where
  alloc := hinv.alloc
  noReaders := rfl
  sane := fun j hj => by
    by_cases hji : j = i
    · subst hji
      simp
    · simpa [Function.update_noteq hji] using hinv.sane j hj
  held := fun _ _ _ => rfl
  holder := fun _ => ⟨i, hi, by simp [PC.inCritical]⟩
  excl := fun j k hj hk hcj hck => by
    have hnone : ∀ m, m < n → m ≠ i → (c.pc m).inCritical = true → False := fun m hm _ hc => by
      have := hinv.held m hm hc
      rw [hw] at this
      exact absurd this (by decide)
    by_cases hji : j = i
    · by_cases hki : k = i
      · rw [hji, hki]
      · simp only [Function.update_noteq hki] at hck
        exact (hnone k hk hki hck).elim
    · simp only [Function.update_noteq hji] at hcj
      exact (hnone j hj hji hcj).elim
  written := fun j hj hc => by
    by_cases hji : j = i
    · subst hji
      simp at hc
    · simp only [Function.update_noteq hji] at hc
      exact hinv.written j hj hc
  kept := hinv.kept

theorem inv_step_locked (keys : Nat → String) (n : Nat) (sm0 : SafeMap)
    (hkeys : ∀ i j, i < n → j < n → keys i = keys j → i = j)
    (c : Config) (i : Nat) (hi : i < n) (hinv : Inv keys n sm0 c) (hpc : c.pc i = .locked)
    (f : Finmap (fun _ : String => Int)) (hd : c.store.data = some f) :
    Inv keys n sm0
      { store := { toRWMutex := c.store.toRWMutex, data := some (f.insert (keys i) (i : Int)) }
        pc := Function.update c.pc i .assigned } where
  alloc := by simp
  noReaders := hinv.noReaders
  sane := fun j hj => by
    by_cases hji : j = i
    · subst hji
      simp
    · simpa [Function.update_noteq hji] using hinv.sane j hj
  held := fun _ _ _ => hinv.held i hi (by simp [hpc, PC.inCritical])
  holder := fun _ => ⟨i, hi, by simp [PC.inCritical]⟩
  excl := fun j k hj hk hcj hck => by
    have hold : ∀ m, m < n → (Function.update c.pc i PC.assigned m).inCritical = true →
        (c.pc m).inCritical = true := fun m _ hc => by
      by_cases hmi : m = i
      · subst hmi
        simp [hpc, PC.inCritical]
      · simpa [Function.update_noteq hmi] using hc
    exact hinv.excl j k hj hk (hold j hj hcj) (hold k hk hck)
  written := fun j hj hc => by
    by_cases hji : j = i
    · subst hji
      exact access2_insert_self f (keys j) (j : Int)
    · simp only [Function.update_noteq hji] at hc
      have hne : keys j ≠ keys i := fun e => hji (hkeys j i hj hi e)
      have := hinv.written j hj hc
      rw [hd] at this
      simp only
      rw [access2_insert_of_ne f (keys i) (keys j) (i : Int) hne]
      exact this
  kept := fun k hk => by
    have := hinv.kept k hk
    rw [hd] at this
    simp only
    rw [access2_insert_of_ne f (keys i) k (i : Int) (Ne.symm (hk i hi))]
    exact this

theorem inv_step_assigned (keys : Nat → String) (n : Nat) (sm0 : SafeMap) (c : Config) (i : Nat)
    (hi : i < n)
    (hinv : Inv keys n sm0 c) (hpc : c.pc i = .assigned) :
    Inv keys n sm0
      { store := { toRWMutex := { writer := false, readers := c.store.readers },
                   data := c.store.data }
        pc := Function.update c.pc i .done } where
  alloc := hinv.alloc
  noReaders := hinv.noReaders
  sane := fun j hj => by
    by_cases hji : j = i
    · subst hji
      simp
    · simpa [Function.update_noteq hji] using hinv.sane j hj
  held := fun j hj hc => by
    by_cases hji : j = i
    · subst hji
      simp [PC.inCritical] at hc
    · simp only [Function.update_noteq hji] at hc
      exact absurd (hinv.excl j i hj hi hc (by simp [hpc, PC.inCritical])) hji
  holder := fun hw => by simp at hw
  excl := fun j k hj hk hcj hck => by
    have hold : ∀ m, m < n → (Function.update c.pc i PC.done m).inCritical = true →
        (c.pc m).inCritical = true := fun m _ hc => by
      by_cases hmi : m = i
      · subst hmi
        simp [PC.inCritical] at hc
      · simpa [Function.update_noteq hmi] using hc
    exact hinv.excl j k hj hk (hold j hj hcj) (hold k hk hck)
  written := fun j hj hc => by
    by_cases hji : j = i
    · subst hji
      exact hinv.written j hj (Or.inl hpc)
    · simp only [Function.update_noteq hji] at hc
      exact hinv.written j hj hc
  kept := hinv.kept

/-- A move of one goroutine keeps the invariant and uses up one operation. -/
theorem inv_step (keys : Nat → String) (n : Nat) (sm0 : SafeMap)
    (hkeys : ∀ i j, i < n → j < n → keys i = keys j → i = j)
    (c c2 : Config) (i : Nat) (hinv : Inv keys n sm0 c) (hstep : c.step keys n i = some c2) :
    Inv keys n sm0 c2 ∧ c2.remaining n + 1 = c.remaining n := by
  by_cases hi : i < n
  · rcases hinv.sane i hi with hpc | hpc | hpc | hpc
    · cases hw : c.store.writer with
      | true =>
        rw [step_none_of_held keys n c i hpc hw] at hstep
        exact absurd hstep (by simp)
      | false =>
        rw [step_of_start keys n c i hi hpc hw hinv.noReaders, Option.some.injEq] at hstep
        subst hstep
        refine ⟨inv_step_start keys n sm0 c i hi hinv hpc hw, ?_⟩
        have := remaining_update n c.pc i hi .locked
        rw [hpc, show PC.start.remaining = 3 from rfl,
          show PC.locked.remaining = 2 from rfl] at this
        simp only [Config.remaining]
        omega
    · obtain ⟨f, hf⟩ := Option.ne_none_iff_exists'.mp hinv.alloc
      rw [step_of_locked keys n c i hi hpc f hf, Option.some.injEq] at hstep
      subst hstep
      refine ⟨inv_step_locked keys n sm0 hkeys c i hi hinv hpc f hf, ?_⟩
      have := remaining_update n c.pc i hi .assigned
      rw [hpc, show PC.locked.remaining = 2 from rfl,
        show PC.assigned.remaining = 1 from rfl] at this
      simp only [Config.remaining]
      omega
    · have hw : c.store.writer = true := hinv.held i hi (by simp [hpc, PC.inCritical])
      rw [step_of_assigned keys n c i hi hpc hw, Option.some.injEq] at hstep
      subst hstep
      refine ⟨inv_step_assigned keys n sm0 c i hi hinv hpc, ?_⟩
      have := remaining_update n c.pc i hi .done
      rw [hpc, show PC.assigned.remaining = 1 from rfl,
        show PC.done.remaining = 0 from rfl] at this
      simp only [Config.remaining]
      omega
    · rw [step_none_of_done keys n c i hpc] at hstep
      exact absurd hstep (by simp)
  · rw [step_none_of_ge keys n c i hi] at hstep
    exact absurd hstep (by simp)

/-- A schedule that runs keeps the invariant, and its length is the number of
operations it used up. -/
theorem inv_runSchedule (keys : Nat → String) (n : Nat) (sm0 : SafeMap)
    (hkeys : ∀ i j, i < n → j < n → keys i = keys j → i = j) (sched : List Nat) :
    ∀ c c2 : Config, Inv keys n sm0 c → runSchedule keys n sched c = some c2 →
      Inv keys n sm0 c2 ∧ c2.remaining n + sched.length = c.remaining n := by
  induction sched with
  | nil =>
    intro c c2 hinv hrun
    simp only [runSchedule, Option.some.injEq] at hrun
    subst hrun
    exact ⟨hinv, rfl⟩
  | cons i sched ih =>
    intro c c2 hinv hrun
    simp only [runSchedule] at hrun
    split at hrun
    · rename_i c1 hstep
      obtain ⟨hinv1, hrem1⟩ := inv_step keys n sm0 hkeys c c1 i hinv hstep
      obtain ⟨hinv2, hrem2⟩ := ih c1 c2 hinv1 hrun
      refine ⟨hinv2, ?_⟩
      simp only [List.length_cons]
      omega
    · exact absurd hrun (by simp)

theorem joined_of_remaining_zero (keys : Nat → String) (n : Nat) (sm0 : SafeMap) (c : Config)
    (hinv : Inv keys n sm0 c) (h : c.remaining n = 0) : c.joined n := by
  intro i hi
  have hz : (c.pc i).remaining = 0 :=
    (Finset.sum_eq_zero_iff.mp h) i (Finset.mem_range.mpr hi)
  rcases hinv.sane i hi with hpc | hpc | hpc | hpc
  · rw [hpc] at hz
    exact absurd hz (by decide)
  · rw [hpc] at hz
    exact absurd hz (by decide)
  · rw [hpc] at hz
    exact absurd hz (by decide)
  · exact hpc

/-- No deadlock: while some goroutine has operations left, one can move. -/
theorem exists_step (keys : Nat → String) (n : Nat) (sm0 : SafeMap) (c : Config)
    (hinv : Inv keys n sm0 c) (h : c.remaining n ≠ 0) :
    ∃ i c2, c.step keys n i = some c2 := by
  obtain ⟨i, hmem, hne⟩ := Finset.exists_ne_zero_of_sum_ne_zero h
  have hi : i < n := Finset.mem_range.mp hmem
  have stepCritical : ∀ j, j < n → (c.pc j).inCritical = true →
      ∃ j c2, c.step keys n j = some c2 := by
    intro j hj hc
    rcases hinv.sane j hj with hpc | hpc | hpc | hpc
    · rw [hpc] at hc
      exact absurd hc (by decide)
    · obtain ⟨f, hf⟩ := Option.ne_none_iff_exists'.mp hinv.alloc
      exact ⟨j, _, step_of_locked keys n c j hj hpc f hf⟩
    · exact ⟨j, _, step_of_assigned keys n c j hj hpc (hinv.held j hj hc)⟩
    · rw [hpc] at hc
      exact absurd hc (by decide)
  cases hw : c.store.writer with
  | true =>
    obtain ⟨j, hj, hc⟩ := hinv.holder hw
    exact stepCritical j hj hc
  | false =>
    rcases hinv.sane i hi with hpc | hpc | hpc | hpc
    · exact ⟨i, _, step_of_start keys n c i hi hpc hw hinv.noReaders⟩
    · exact stepCritical i hi (by rw [hpc]; rfl)
    · exact stepCritical i hi (by rw [hpc]; rfl)
    · rw [hpc] at hne
      exact absurd rfl hne

/-- Every state the writers can reach can be run on until all have returned. -/
theorem exists_completion (keys : Nat → String) (n : Nat) (sm0 : SafeMap)
    (hkeys : ∀ i j, i < n → j < n → keys i = keys j → i = j) :
    ∀ (m : Nat) (c : Config), Inv keys n sm0 c → c.remaining n = m →
      ∃ sched c2, runSchedule keys n sched c = some c2 ∧ c2.joined n := by
  intro m
  induction m with
  | zero =>
    intro c hinv hm
    exact ⟨[], c, rfl, joined_of_remaining_zero keys n sm0 c hinv hm⟩
  | succ m ih =>
    intro c hinv hm
    obtain ⟨i, c1, hstep⟩ := exists_step keys n sm0 c hinv (by omega)
    obtain ⟨hinv1, hrem1⟩ := inv_step keys n sm0 hkeys c c1 i hinv hstep
    obtain ⟨sched, c2, hrun, hjoin⟩ := ih c1 hinv1 (by omega)
    refine ⟨i :: sched, c2, ?_, hjoin⟩
    simp only [runSchedule, hstep]
    exact hrun

/-- After the join the lock is free again. -/
theorem ready_of_joined (keys : Nat → String) (n : Nat) (sm0 : SafeMap) (c : Config)
    (hinv : Inv keys n sm0 c) (hjoin : c.joined n) : Ready c.store := by
  refine ⟨hinv.alloc, ?_, hinv.noReaders⟩
  cases hw : c.store.writer with
  | false => rfl
  | true =>
    obtain ⟨j, hj, hc⟩ := hinv.holder hw
    rw [hjoin j hj] at hc
    exact absurd hc (by decide)

/-- C6: concurrency safety. For every `N`, every choice of pairwise distinct keys
`k0..kN-1` and every store reachable from `NewSafeMap()`: launch `N` goroutines,
goroutine `i` calling `Set(ki, i)`. Then in every interleaving of their lock,
assignment and unlock operations, at every moment: at most one goroutine is
between its `Lock` and its `Unlock`; no goroutine has panicked or hit a fatal lock
error; at most `3 * N` operations have run; the goroutines can always run on
until all have returned, so the join happens; and once all have returned, the
lock is free, `Get(ki)` returns `(i, true)` for every `i`, and `Get` of any other
key returns what it returned before the launch. -/
theorem C6_concurrent_sets (n : Nat) (keys : Nat → String) (sm : SafeMap)
    (hsm : Reachable sm) (hkeys : ∀ i j, i < n → j < n → keys i = keys j → i = j)
    (sched : List Nat) (c : Config) (hrun : runSchedule keys n sched (launch sm) = some c) :
    (∀ i j, i < n → j < n →
      (c.pc i).inCritical = true → (c.pc j).inCritical = true → i = j) ∧
    (∀ i, i < n → c.pc i ≠ .panicking ∧ c.pc i ≠ .crashed ∧ c.pc i ≠ .fatal) ∧
    sched.length ≤ 3 * n ∧
    (∃ sched2 c2, runSchedule keys n sched2 c = some c2 ∧ c2.joined n) ∧
    (c.joined n →
      (c.store.writer = false ∧ c.store.readers = 0) ∧
      (∀ i, i < n → (c.store.Get (keys i)).status = .returned ((i : Int), true)) ∧
      (∀ k, (∀ i, i < n → keys i ≠ k) → (c.store.Get k).status = (sm.Get k).status)) := by
  have hready0 := ready_of_reachable sm hsm
  have hinv0 := inv_launch keys n sm hready0
  obtain ⟨hinv, hrem⟩ := inv_runSchedule keys n sm hkeys sched (launch sm) c hinv0 hrun
  rw [remaining_launch] at hrem
  refine ⟨hinv.excl, ?_, by omega, exists_completion keys n sm hkeys _ c hinv rfl, ?_⟩
  · intro i hi
    rcases hinv.sane i hi with hpc | hpc | hpc | hpc <;> rw [hpc] <;> decide
  · intro hjoin
    have hready := ready_of_joined keys n sm c hinv hjoin
    refine ⟨hready.2, ?_, ?_⟩
    · intro i hi
      rw [get_ready_status c.store (keys i) hready]
      rw [hinv.written i hi (Or.inr (hjoin i hi))]
    · intro k hk
      rw [get_ready_status c.store k hready, get_ready_status sm k hready0, hinv.kept k hk]

theorem mainKey_injective_ten :
    ∀ i j, i < 10 → j < 10 → mainKey i = mainKey j → i = j := by
  intro i j hi hj
  interval_cases i <;> interval_cases j <;> decide

theorem C6_concurrent_sets_witness :
    Reachable NewSafeMap ∧
      (∀ i j, i < 10 → j < 10 → mainKey i = mainKey j → i = j) ∧
      ∃ c, runSchedule mainKey 10
          [3, 3, 3, 0, 0, 0, 9, 9, 9, 1, 1, 1, 7, 7, 7, 2, 2, 2, 8, 8, 8, 4, 4, 4, 6, 6, 6,
            5, 5, 5] (launch NewSafeMap) = some c ∧
        c.joined 10 ∧
        ∀ i, i < 10 → (c.store.Get (mainKey i)).status = .returned ((i : Int), true) := by
  have hsome : (runSchedule mainKey 10
      [3, 3, 3, 0, 0, 0, 9, 9, 9, 1, 1, 1, 7, 7, 7, 2, 2, 2, 8, 8, 8, 4, 4, 4, 6, 6, 6,
        5, 5, 5] (launch NewSafeMap)).isSome = true := by
    decide
  obtain ⟨c, hc⟩ := Option.isSome_iff_exists.mp hsome
  have hdone : ((runSchedule mainKey 10
      [3, 3, 3, 0, 0, 0, 9, 9, 9, 1, 1, 1, 7, 7, 7, 2, 2, 2, 8, 8, 8, 4, 4, 4, 6, 6, 6,
        5, 5, 5] (launch NewSafeMap)).map
        fun c => (List.range 10).all fun i => decide (c.pc i = PC.done))
      = some true := by
    decide
  rw [hc] at hdone
  simp only [Option.map_some', Option.some.injEq, List.all_eq_true, List.mem_range,
    decide_eq_true_eq] at hdone
  have hjoin : c.joined 10 := hdone
  exact ⟨reachable_new, mainKey_injective_ten, c, hc, hjoin,
    ((C6_concurrent_sets 10 mainKey NewSafeMap reachable_new mainKey_injective_ten _ c
      hc).2.2.2.2 hjoin).2.1⟩

/-! ## withRetry -/

/-- The loop of `withRetry`, entered at `i = k` after `k` failed invocations,
with enough fuel for the iterations that remain. -/
theorem retryLoop_spec {σ : Type} (attempts : Int) (handler : HttpHandler σ) (req : String)
    (w : σ) :
    ∀ (fuel k : Nat) (log : List String) (slept : Nat),
      attempts.toNat + 1 ≤ fuel + k → k ≤ attempts.toNat →
      (∀ j, j < k → (invocation handler req w j).2 ≠ none) →
      ∃ r, retryLoop attempts handler req fuel (k : Int) (lastError handler req w k)
            (worldBefore handler req w k) k log slept = some r ∧
        r.calls ≤ attempts.toNat ∧
        r.world = worldBefore handler req w r.calls ∧
        (∀ j, j + 1 < r.calls → (invocation handler req w j).2 ≠ none) ∧
        (r.err = none →
          0 < r.calls ∧ invocation handler req w (r.calls - 1) = (r.result, none)) ∧
        (r.err ≠ none →
          r.result = "" ∧ r.calls = attempts.toNat ∧
          (∀ j, j < attempts.toNat → (invocation handler req w j).2 ≠ none) ∧
          r.err = some ("all " ++ toString attempts ++ " attempts failed. Last error: "
            ++ (lastError handler req w attempts.toNat).format)) := by
  intro fuel
  induction fuel with
  | zero =>
    intro k log slept hfuel hk _
    omega
  | succ fuel ih =>
    intro k log slept hfuel hk hfail
    by_cases hlt : (k : Int) < attempts
    · have hk1 : k + 1 ≤ attempts.toNat := by omega
      cases hcall : handler req (worldBefore handler req w k) with
      | mk out w2 =>
        obtain ⟨result, e⟩ := out
        have hinv : invocation handler req w k = (result, e) := by
          simp [invocation, hcall]
        have hw2 : worldBefore handler req w (k + 1) = w2 := by
          simp [worldBefore, hcall]
        cases e with
        | none =>
          refine ⟨{ result := result, err := none, world := w2, calls := k + 1, log := log,
                    slept := slept },
            by simp only [retryLoop, hlt, if_true, hcall], hk1, hw2.symm, ?_, ?_, ?_⟩
          · intro j hj
            exact hfail j (by simpa using hj)
          · intro _
            exact ⟨Nat.succ_pos k, by simpa using hinv⟩
          · intro hne
            exact absurd rfl hne
        | some msg =>
          have hlast : lastError handler req w (k + 1) = some msg := by
            simp [lastError, hinv]
          have hfail2 : ∀ j, j < k + 1 → (invocation handler req w j).2 ≠ none := by
            intro j hj
            rcases Nat.lt_succ_iff_lt_or_eq.mp hj with h | h
            · exact hfail j h
            · rw [h, hinv]
              simp
          obtain ⟨r, hr, hspec⟩ := ih (k + 1)
            (log ++ ["Attempt " ++ toString ((k : Int) + 1) ++ " failed: " ++ msg])
            (slept + 100) (by omega) hk1 hfail2
          refine ⟨r, ?_, hspec⟩
          simp only [retryLoop, hlt, if_true, hcall]
          rw [hlast, hw2] at hr
          simpa using hr
    · have hkeq : k = attempts.toNat := by omega
      refine ⟨{ result := "",
                err := some ("all " ++ toString attempts ++ " attempts failed. Last error: "
                  ++ (lastError handler req w k).format),
                world := worldBefore handler req w k, calls := k, log := log, slept := slept },
        by simp only [retryLoop, hlt, if_false], hk, rfl, ?_, ?_, ?_⟩
      · intro j hj
        exact hfail j (by simp only at hj; omega)
      · intro hne
        simp at hne
      · intro _
        refine ⟨rfl, hkeq, ?_, ?_⟩
        · intro j hj
          exact hfail j (by omega)
        · simp only [hkeq]

/-- C10: `withRetry(attempts, handler)(req)` always returns. It invokes
`handler(req)` at most `attempts` times (never when `attempts <= 0`), each
invocation on the program state the previous one left. Every invocation but the
last has failed; when the returned error is nil, the last invocation is the
first one whose error is nil, and its result is what is returned. The returned
error is non-nil exactly when none of the first `attempts` consecutive
invocations succeeds; then the handler was invoked `attempts` times (not at all
when `attempts <= 0`), the result is the empty string and the error reads
"all <attempts> attempts failed. Last error: <last error>", the last error being
that of the last invocation, or `<nil>` when there was none. -/
theorem C10_withRetry {σ : Type} (attempts : Int) (handler : HttpHandler σ) (req : String)
    (w : σ) :
    ∃ r, withRetry attempts handler req w = some r ∧
      (r.calls : Int) ≤ max attempts 0 ∧
      r.world = worldBefore handler req w r.calls ∧
      (∀ j, j + 1 < r.calls → (invocation handler req w j).2 ≠ none) ∧
      (r.err = none →
        0 < r.calls ∧ invocation handler req w (r.calls - 1) = (r.result, none)) ∧
      (r.err ≠ none ↔ ∀ j : Nat, (j : Int) < attempts → (invocation handler req w j).2 ≠ none) ∧
      (r.err ≠ none →
        r.result = "" ∧ (r.calls : Int) = max attempts 0 ∧
        r.err = some ("all " ++ toString attempts ++ " attempts failed. Last error: "
          ++ (lastError handler req w attempts.toNat).format)) ∧
      (attempts ≤ 0 →
        r.calls = 0 ∧ r.world = w ∧ r.result = "" ∧
        r.err = some ("all " ++ toString attempts ++ " attempts failed. Last error: <nil>")) := by
  obtain ⟨r, hr, hcalls, hworld, hprev, hok, herr⟩ :=
    retryLoop_spec attempts handler req w (attempts.toNat + 1) 0 [] 0 (by omega) (by omega)
      (fun j hj => absurd hj (Nat.not_lt_zero j))
  have hiff : r.err ≠ none ↔
      ∀ j : Nat, (j : Int) < attempts → (invocation handler req w j).2 ≠ none := by
    constructor
    · intro hne j hj
      exact (herr hne).2.2.1 j (by omega)
    · intro hall hnone
      obtain ⟨hpos, hlast⟩ := hok hnone
      have := hall (r.calls - 1) (by omega)
      rw [hlast] at this
      exact this rfl
  refine ⟨r, hr, by omega, hworld, hprev, hok, hiff, ?_, ?_⟩
  · intro hne
    obtain ⟨hres, hc, -, hmsg⟩ := herr hne
    exact ⟨hres, by omega, hmsg⟩
  · intro hle
    have hzero : attempts.toNat = 0 := by omega
    have hc0 : r.calls = 0 := by omega
    have hne : r.err ≠ none := hiff.mpr (fun j hj => by omega)
    obtain ⟨hres, -, -, hmsg⟩ := herr hne
    refine ⟨hc0, by rw [hworld, hc0]; rfl, hres, ?_⟩
    have hcat : " attempts failed. Last error: " ++ "<nil>"
        = " attempts failed. Last error: <nil>" := by decide
    rw [hmsg, hzero]
    simp only [lastError, GoError.format, String.append_assoc, hcat]

/-- The decorator on a handler that fails twice and then succeeds: three
attempts reach the success; two attempts, or none, end in the error. -/
theorem withRetry_flaky :
    ((withRetry 3 (flaky 2) "test-request" 0).map
        fun r => (r.result, r.err, r.calls, r.world, r.log, r.slept))
      = some ("processed: test-request", none, 3, 3,
          ["Attempt 1 failed: random error", "Attempt 2 failed: random error"], 200) ∧
    ((withRetry 2 (flaky 2) "test-request" 0).map fun r => (r.result, r.err, r.calls, r.world))
      = some ("", some "all 2 attempts failed. Last error: random error", 2, 2) ∧
    ((withRetry (-1) (flaky 2) "test-request" 0).map
        fun r => (r.result, r.err, r.calls, r.world))
      = some ("", some "all -1 attempts failed. Last error: <nil>", 0, 0) := by
  refine ⟨?_, ?_, ?_⟩
  · simp [withRetry, retryLoop, flaky]
    decide
  · simp [withRetry, retryLoop, flaky, GoError.format]
    decide
  · simp [withRetry, retryLoop, flaky, GoError.format]
    decide

/-! ## NewServer -/

theorem lastArg_nil (arg : OptionCall → Option Int) : lastArg arg [] = none := rfl

/-- The last targeting call of a list with one more call at its end. -/
theorem lastArg_concat (arg : OptionCall → Option Int) (calls : List OptionCall)
    (call : OptionCall) :
    lastArg arg (calls ++ [call]) = (arg call).or (lastArg arg calls) := by
  cases h : arg call <;> simp [lastArg, List.filterMap_append, List.filterMap_cons, h]

/-- Applying the options of a list of constructor calls to any server: the host
stays, and each field ends as the argument of the last call that targets it, or
as it was when no call targets it. -/
theorem foldl_options (calls : List OptionCall) (s : Server) :
    ((calls.map OptionCall.build).foldl (fun server option => option server) s).host = s.host ∧
    ((calls.map OptionCall.build).foldl (fun server option => option server) s).port
      = (lastArg OptionCall.portArg calls).getD s.port ∧
    ((calls.map OptionCall.build).foldl (fun server option => option server) s).timeout
      = (lastArg OptionCall.timeoutArg calls).getD s.timeout ∧
    ((calls.map OptionCall.build).foldl (fun server option => option server) s).maxConn
      = (lastArg OptionCall.maxConnArg calls).getD s.maxConn := by
  induction calls using List.reverseRecOn with
  | nil => exact ⟨rfl, rfl, rfl, rfl⟩
  | append_singleton calls call ih =>
    obtain ⟨hhost, hport, htimeout, hmaxConn⟩ := ih
    simp only [List.map_append, List.map_cons, List.map_nil, List.foldl_append, List.foldl_cons,
      List.foldl_nil, lastArg_concat]
    cases call with
    | withPort port =>
      exact ⟨hhost, rfl, htimeout, hmaxConn⟩
    | withTimeout timeout =>
      exact ⟨hhost, hport, rfl, hmaxConn⟩
    | withMaxConn maxConn =>
      exact ⟨hhost, hport, htimeout, rfl⟩

/-- C11: `NewServer(host, options...)` with no option returns the server with
the given host and the defaults: port 8080, timeout 30 seconds, maxConn 100. For
every list of options built from `WithPort`, `WithTimeout` and `WithMaxConn`, the
host of the server returned is the given host, and each of port, timeout and
maxConn is the argument of the last option in the list that targets that field,
or the default when none does.
`NewServer("localhost", WithPort(9000), WithTimeout(1*time.Minute), WithMaxConn(1000))`
has host `localhost`, port 9000, timeout one minute and maxConn 1000. -/
theorem C11_newServer_options (host : String) (calls : List OptionCall) :
    NewServer host []
      = { host := host, port := 8080, timeout := 30 * time.Second, maxConn := 100 } ∧
    (NewServer host (calls.map OptionCall.build)).host = host ∧
    (NewServer host (calls.map OptionCall.build)).port
      = (lastArg OptionCall.portArg calls).getD 8080 ∧
    (NewServer host (calls.map OptionCall.build)).timeout
      = (lastArg OptionCall.timeoutArg calls).getD (30 * time.Second) ∧
    (NewServer host (calls.map OptionCall.build)).maxConn
      = (lastArg OptionCall.maxConnArg calls).getD 100 ∧
    NewServer "localhost" [WithPort 9000, WithTimeout (1 * time.Minute), WithMaxConn 1000]
      = { host := "localhost", port := 9000, timeout := time.Minute, maxConn := 1000 } := by
  obtain ⟨hhost, hport, htimeout, hmaxConn⟩ := foldl_options calls
    { host := host, port := 8080, timeout := 30 * time.Second, maxConn := 100 }
  exact ⟨rfl, hhost, hport, htimeout, hmaxConn, by decide⟩

/-- An option given twice: the later call decides, and the fields no call
targets keep their defaults. -/
theorem newServer_repeated_option :
    NewServer "example.org"
        ([.withPort 1, .withTimeout 5, .withPort 2].map OptionCall.build)
      = { host := "example.org", port := 2, timeout := 5, maxConn := 100 } ∧
    lastArg OptionCall.portArg [.withPort 1, .withTimeout 5, .withPort 2] = some 2 ∧
    lastArg OptionCall.maxConnArg [.withPort 1, .withTimeout 5, .withPort 2] = none := by
  decide

end GoLang
